import Mathlib

/-!
Verification of the parallel Mandelbrot renderer in `mandel.c`.

The C program is shallowly embedded as follows:
- C `double` values are modelled as `ℚ` (exact arithmetic; the update
  formulas and escape tests of the program are polynomial comparisons, and
  every claim checked here is about the algebraic structure of the
  computation).
- C `int` values are modelled as `ℤ` (or `ℕ` for loop counters and pixel
  indices that the program keeps non-negative); C integer division truncates
  toward zero, which is `Int.tdiv`.
- The unguarded integer division `255*i/max` in `iteration_to_color` is
  fallible at `max = 0`, so the color functions return `Option ℤ`, with
  `none` marking the division by zero the C code would perform there.
- The shared bitmap is a function `ℕ → ℕ → Option ℤ`; `bitmap_set` is a
  pointwise update, and a render is a fold of the write list produced by the
  worker loops of `compute_image` over the sentinel-filled initial bitmap.
-/

namespace Mandel

/-- Modelled from the spec: `MAKE_RGBA` comes from `bitmap.h`, which is not
in the repository; the spec describes Color as a packed RGBA value, so the
four 8-bit channels are packed into one integer. -/
def MAKE_RGBA (r g b a : ℤ) : ℤ := r * 2 ^ 24 + g * 2 ^ 16 + b * 2 ^ 8 + a

/-- The escape loop of `iterations_at_point` in `mandel.c`:
`while (x*x + y*y <= 4 && iter < max) { xt = x*x - y*y + x0; yt = 2*x*y + y0;
x = xt; y = yt; iter++; }`. The fuel argument is `max - iter`, so the value
returned is the final `iter`, the number of completed loop passes. -/
def mandelIter (x0 y0 : ℚ) : ℚ → ℚ → ℕ → ℕ
  | _, _, 0 => 0
  | x, y, fuel + 1 =>
    if x * x + y * y ≤ 4 then
      mandelIter x0 y0 (x * x - y * y + x0) (2 * x * y + y0) fuel + 1
    else 0

/-- `iteration_to_color` in `mandel.c`: `int gray = 255*i/max;
return MAKE_RGBA(gray,gray,gray,0);`. C `int` division truncates toward zero
(`Int.tdiv`) and is undefined for `max = 0`, which is modelled as `none`. -/
def iteration_to_color (i max : ℤ) : Option ℤ :=
  if max = 0 then none
  else
    let gray := (255 * i).tdiv max
    some (MAKE_RGBA gray gray gray 0)

/-- `iterations_at_point` in `mandel.c`: the loop starts from `x0 = x`,
`y0 = y` with the running point initialized to `(x, y)` itself, runs for at
most `max` passes, and hands the final `iter` to `iteration_to_color`. -/
def iterations_at_point (x y : ℚ) (max : ℤ) : Option ℤ :=
  iteration_to_color (mandelIter x y x y max.toNat) max

/-- The quadratic orbit `z ↦ z² + c` with `c = x0 + i·y0`, as a pair of
rationals, started from an arbitrary point `p`. `zOrbit x0 y0 (x0, y0)` is
the orbit the loop of `iterations_at_point` walks through. -/
def zOrbit (x0 y0 : ℚ) (p : ℚ × ℚ) : ℕ → ℚ × ℚ
  | 0 => p
  | n + 1 => zOrbit x0 y0 (p.1 * p.1 - p.2 * p.2 + x0, 2 * p.1 * p.2 + y0) n

/-- Modelled from the words of the spec, for comparison with the code (claim
C2): the same update, test and color mapping, but with the iteration started
from `z = 0` as the spec states, so the first completed iteration moves `z`
from `0` to `c`. -/
def specEscapeColor (x y : ℚ) (max : ℤ) : Option ℤ :=
  iteration_to_color (mandelIter x y 0 0 max.toNat) max

/-- The per-thread argument block `struct thread_args` of `mandel.c`. The
bitmap pointer is not stored here: the shared bitmap is threaded through the
write-application fold below, and its dimensions are passed to
`compute_image_writes` explicitly. The C field `max` is declared `double` but
only ever holds the integer configuration value, converted back to `int`
when passed to `iterations_at_point`, so it is modelled as `ℤ`. -/
structure thread_args where
  xmin : ℚ
  xmax : ℚ
  ymin : ℚ
  ymax : ℚ
  max : ℤ
  threads : ℕ
  tnumber : ℕ

/-- The render configuration assembled by `main` in `mandel.c` (the spec
calls it `RenderConfig`). The spec invariant keeps `image_width`,
`image_height` and `threads` positive integers, so they are modelled as `ℕ`. -/
structure RenderConfig where
  xcenter : ℚ
  ycenter : ℚ
  scale : ℚ
  image_width : ℕ
  image_height : ℕ
  max : ℤ
  threads : ℕ

/-- The argument block `main` builds for worker `t` (`args[activeThreads]`):
after `yscale = scale / threads` and the pre-shift `ycenter = ycenter -
yscale`, every worker receives the same plane window `[ycenter - yscale,
ycenter + yscale]`; the blocks differ only in `tnumber`. -/
def mkArgs (cfg : RenderConfig) (t : ℕ) : thread_args :=
  let yscale := cfg.scale / cfg.threads
  let ycenter := cfg.ycenter - yscale
  { xmin := cfg.xcenter - cfg.scale
    xmax := cfg.xcenter + cfg.scale
    ymin := ycenter - yscale
    ymax := ycenter + yscale
    max := cfg.max
    threads := cfg.threads
    tnumber := t }

/-- The writes `compute_image` performs, in program order: with
`height = bitmap_height / threads` and `start = height * (tnumber - 1)`, it
walks rows `j = start, ..., start + height - 1` and inside each row columns
`i = 0, ..., width - 1`, writing the color of
`iterations_at_point(xmin + i*(xmax - xmin)/width,
ymin + j*(ymax - ymin)/height, max)` into cell `(i, j)`. -/
def compute_image_writes (bm_width bm_height : ℕ) (args : thread_args) :
    List ((ℕ × ℕ) × Option ℤ) :=
  let width := bm_width
  let height := bm_height / args.threads
  let start := height * (args.tnumber - 1)
  (List.range' start height).flatMap fun j =>
    (List.range width).map fun i =>
      ((i, j),
        iterations_at_point
          (args.xmin + i * (args.xmax - args.xmin) / width)
          (args.ymin + j * (args.ymax - args.ymin) / height)
          args.max)

/-- The values `activeThreads` takes inside the thread-creation loop of
`main`, in order: `1, 2, ..., threads`. These are the positions used to
index the length `threads` arrays `args` and `tid`. -/
def dispatchIndices (threads : ℕ) : List ℕ :=
  (List.range threads).map (fun a => a + 1)

/-- The values `activeThreads` takes inside the join loop of `main`, in
order: `threads, threads - 1, ..., 1`. -/
def joinIndices (threads : ℕ) : List ℕ :=
  (dispatchIndices threads).reverse

/-- A bounds-checked access into a 0-based array of length `len` succeeds
exactly for indices below `len`. The C arrays `args` and `tid` in `main`
have length `threads`. -/
def indexInBounds (len idx : ℕ) : Prop := idx < len

/-- All pixel writes of one render, in dispatch order: worker `t`
contributes the writes of `compute_image` on `args[t]`. -/
def renderWrites (cfg : RenderConfig) : List ((ℕ × ℕ) × Option ℤ) :=
  (dispatchIndices cfg.threads).flatMap fun t =>
    compute_image_writes cfg.image_width cfg.image_height (mkArgs cfg t)

/-- `bitmap_set`: pointwise update of the shared bitmap at one cell. -/
def bitmap_set (bm : ℕ → ℕ → Option ℤ) (i j : ℕ) (c : Option ℤ) :
    ℕ → ℕ → Option ℤ :=
  fun i2 j2 => if i2 = i ∧ j2 = j then c else bm i2 j2

/-- Apply a list of pixel writes to a bitmap, first write first. -/
def applyWrites (bm : ℕ → ℕ → Option ℤ) (l : List ((ℕ × ℕ) × Option ℤ)) :
    ℕ → ℕ → Option ℤ :=
  l.foldl (fun b w => bitmap_set b w.1.1 w.1.2 w.2) bm

/-- The debugging fill of `main`: `bitmap_reset(bm, MAKE_RGBA(0,0,255,0))`. -/
def sentinel : ℤ := MAKE_RGBA 0 0 255 0

/-- The bitmap right after `bitmap_create` and `bitmap_reset`: every cell
holds the sentinel color. -/
def initialBitmap : ℕ → ℕ → Option ℤ := fun _ _ => some sentinel

/-- One full render: the sentinel-filled bitmap with all worker writes
applied in dispatch order. -/
def render (cfg : RenderConfig) : ℕ → ℕ → Option ℤ :=
  applyWrites initialBitmap (renderWrites cfg)

/-- The x plane coordinate `compute_image` computes for column `i`. It does
not depend on the worker: every `args[t]` holds the same window, so the
window of worker 1 stands for all of them. -/
def xPlane (cfg : RenderConfig) (i : ℕ) : ℚ :=
  (mkArgs cfg 1).xmin +
    i * ((mkArgs cfg 1).xmax - (mkArgs cfg 1).xmin) / cfg.image_width

/-- The y plane coordinate `compute_image` computes for row `j`: the same
formula every worker applies, with `height = image_height / threads`. -/
def yPlane (cfg : RenderConfig) (j : ℕ) : ℚ :=
  (mkArgs cfg 1).ymin +
    j * ((mkArgs cfg 1).ymax - (mkArgs cfg 1).ymin) /
      (cfg.image_height / cfg.threads : ℕ)

/-- The color any worker writes at cell `(i, j)`: it depends only on the
configuration and the cell, not on which worker owns the cell. -/
def pointColor (cfg : RenderConfig) (i j : ℕ) : Option ℤ :=
  iterations_at_point (xPlane cfg i) (yPlane cfg j) cfg.max

/-- The y plane coordinate of the first pixel row of worker `t`: the value
`compute_image` computes at `j = start = height * (tnumber - 1)`. -/
def firstRowY (cfg : RenderConfig) (t : ℕ) : ℚ :=
  yPlane cfg ((cfg.image_height / cfg.threads) * (t - 1))

/-- Modelled from the words of the spec, for comparison with the code (claim
C1): the claimed band lower bound
`ycenter2 - yscale + 2*yscale*(t-1)/thread_count`, where
`yscale = scale/thread_count` and `ycenter2 = center.y - yscale`. -/
def specBandYmin (cfg : RenderConfig) (t : ℕ) : ℚ :=
  let yscale := cfg.scale / cfg.threads
  let ycenter2 := cfg.ycenter - yscale
  ycenter2 - yscale + 2 * yscale * ((t - 1 : ℕ) : ℚ) / cfg.threads

/-- A small concrete configuration: 1×2 image, scale 4, iteration cap 1,
two workers. The height divides evenly, so both rows are rendered. -/
def cfgTwo : RenderConfig := ⟨0, 0, 4, 1, 2, 1, 2⟩

/-- The boundary configuration of the spec: 1×10 image, three workers, so
`row_count = 10 / 3 = 3` and one row is left unrendered. -/
def cfgTen : RenderConfig := ⟨0, 0, 4, 1, 10, 1, 3⟩

theorem zOrbit_shift (x0 y0 : ℚ) (p : ℚ × ℚ) (n : ℕ) :
    zOrbit x0 y0 p (n + 1) =
      zOrbit x0 y0 (p.1 * p.1 - p.2 * p.2 + x0, 2 * p.1 * p.2 + y0) n := rfl

/-- The orbit satisfies the usual head-form recurrence `z_{n+1} = z_n² + c`. -/
theorem zOrbit_succ (x0 y0 : ℚ) (p : ℚ × ℚ) (n : ℕ) :
    zOrbit x0 y0 p (n + 1) =
      ((zOrbit x0 y0 p n).1 * (zOrbit x0 y0 p n).1 -
          (zOrbit x0 y0 p n).2 * (zOrbit x0 y0 p n).2 + x0,
        2 * (zOrbit x0 y0 p n).1 * (zOrbit x0 y0 p n).2 + y0) := by
  induction n generalizing p with
  | zero => rfl
  | succ n ih =>
    rw [zOrbit_shift, ih, zOrbit_shift]

theorem mandelIter_le_fuel (x0 y0 : ℚ) (x y : ℚ) (fuel : ℕ) :
    mandelIter x0 y0 x y fuel ≤ fuel := by
  induction fuel generalizing x y with
  | zero => simp [mandelIter]
  | succ n ih =>
    rw [mandelIter]
    split
    · exact Nat.succ_le_succ (ih _ _)
    · exact Nat.zero_le _

/-- The loop result is exactly the escape index of the orbit started at the
initial running point: every visited point up to the result passes the
`≤ 4` test, and if the loop stopped before exhausting its fuel, the point it
stopped at fails the test. -/
theorem mandelIter_orbit (x0 y0 : ℚ) (p : ℚ × ℚ) (fuel : ℕ) :
    (∀ k < mandelIter x0 y0 p.1 p.2 fuel,
        (zOrbit x0 y0 p k).1 * (zOrbit x0 y0 p k).1 +
          (zOrbit x0 y0 p k).2 * (zOrbit x0 y0 p k).2 ≤ 4) ∧
      (mandelIter x0 y0 p.1 p.2 fuel < fuel →
        4 < (zOrbit x0 y0 p (mandelIter x0 y0 p.1 p.2 fuel)).1 *
              (zOrbit x0 y0 p (mandelIter x0 y0 p.1 p.2 fuel)).1 +
            (zOrbit x0 y0 p (mandelIter x0 y0 p.1 p.2 fuel)).2 *
              (zOrbit x0 y0 p (mandelIter x0 y0 p.1 p.2 fuel)).2) := by
  induction fuel generalizing p with
  | zero => exact ⟨fun k hk => absurd hk (by simp [mandelIter]), fun h => absurd h (by simp)⟩
  | succ n ih =>
    rw [mandelIter]
    split
    · rename_i htest
      obtain ⟨ih1, ih2⟩ := ih (p.1 * p.1 - p.2 * p.2 + x0, 2 * p.1 * p.2 + y0)
      refine ⟨fun k hk => ?_, fun hlt => ?_⟩
      · match k with
        | 0 => exact htest
        | k + 1 =>
          rw [zOrbit_shift]
          exact ih1 k (Nat.lt_of_succ_lt_succ hk)
      · rw [zOrbit_shift]
        exact ih2 (Nat.lt_of_succ_lt_succ hlt)
    · rename_i htest
      refine ⟨fun k hk => absurd hk (Nat.not_lt_zero k), fun _ => ?_⟩
      show 4 < p.1 * p.1 + p.2 * p.2
      exact lt_of_not_le htest

theorem mem_dispatchIndices {n t : ℕ} :
    t ∈ dispatchIndices n ↔ 1 ≤ t ∧ t ≤ n := by
  unfold dispatchIndices
  simp only [List.mem_map, List.mem_range]
  constructor
  · rintro ⟨a, ha, rfl⟩
    omega
  · rintro ⟨h1, h2⟩
    exact ⟨t - 1, by omega, by omega⟩

theorem mem_compute_image_writes {bmw bmh : ℕ} {args : thread_args}
    {w : (ℕ × ℕ) × Option ℤ} :
    w ∈ compute_image_writes bmw bmh args ↔
      ∃ i j : ℕ, i < bmw ∧
        (bmh / args.threads) * (args.tnumber - 1) ≤ j ∧
        j < (bmh / args.threads) * (args.tnumber - 1) + bmh / args.threads ∧
        w = ((i, j),
          iterations_at_point
            (args.xmin + i * (args.xmax - args.xmin) / bmw)
            (args.ymin + j * (args.ymax - args.ymin) /
              (bmh / args.threads : ℕ))
            args.max) := by
  unfold compute_image_writes
  simp only [List.mem_flatMap, List.mem_map, List.mem_range, List.mem_range'_1]
  constructor
  · rintro ⟨j, ⟨hj1, hj2⟩, i, hi, rfl⟩
    exact ⟨i, j, hi, hj1, hj2, rfl⟩
  · rintro ⟨i, j, hi, hj1, hj2, rfl⟩
    exact ⟨j, ⟨hj1, hj2⟩, i, hi, rfl⟩

theorem mem_renderWrites {cfg : RenderConfig} {w : (ℕ × ℕ) × Option ℤ} :
    w ∈ renderWrites cfg ↔
      ∃ t, 1 ≤ t ∧ t ≤ cfg.threads ∧ ∃ i j : ℕ,
        i < cfg.image_width ∧
        (cfg.image_height / cfg.threads) * (t - 1) ≤ j ∧
        j < (cfg.image_height / cfg.threads) * (t - 1) +
          cfg.image_height / cfg.threads ∧
        w = ((i, j), pointColor cfg i j) := by
  unfold renderWrites
  simp only [List.mem_flatMap]
  constructor
  · rintro ⟨t, ht, hw⟩
    rw [mem_dispatchIndices] at ht
    obtain ⟨i, j, hi, hj1, hj2, rfl⟩ := mem_compute_image_writes.mp hw
    exact ⟨t, ht.1, ht.2, i, j, hi, hj1, hj2, rfl⟩
  · rintro ⟨t, ht1, ht2, i, j, hi, hj1, hj2, rfl⟩
    exact ⟨t, mem_dispatchIndices.mpr ⟨ht1, ht2⟩,
      mem_compute_image_writes.mpr ⟨i, j, hi, hj1, hj2, rfl⟩⟩

theorem renderWrites_val {cfg : RenderConfig} {w : (ℕ × ℕ) × Option ℤ}
    (hw : w ∈ renderWrites cfg) :
    w.2 = pointColor cfg w.1.1 w.1.2 := by
  obtain ⟨t, -, -, i, j, -, -, -, rfl⟩ := mem_renderWrites.mp hw
  rfl

theorem applyWrites_stable {bm : ℕ → ℕ → Option ℤ}
    {l : List ((ℕ × ℕ) × Option ℤ)} {i j : ℕ} {c : Option ℤ}
    (hl : ∀ w ∈ l, w.1 = (i, j) → w.2 = c) (hbm : bm i j = c) :
    applyWrites bm l i j = c := by
  induction l generalizing bm with
  | nil => exact hbm
  | cons w l ih =>
    show applyWrites (bitmap_set bm w.1.1 w.1.2 w.2) l i j = c
    refine ih (fun v hv => hl v (List.mem_cons_of_mem w hv)) ?_
    unfold bitmap_set
    split
    · rename_i h
      exact hl w (List.mem_cons_self w l)
        (Prod.ext_iff.mpr ⟨h.1.symm, h.2.symm⟩)
    · exact hbm

theorem applyWrites_mem {bm : ℕ → ℕ → Option ℤ}
    {l : List ((ℕ × ℕ) × Option ℤ)} {i j : ℕ} {c : Option ℤ}
    (hl : ∀ w ∈ l, w.1 = (i, j) → w.2 = c)
    (hmem : ∃ w ∈ l, w.1 = (i, j)) :
    applyWrites bm l i j = c := by
  induction l generalizing bm with
  | nil =>
    obtain ⟨w, hw, -⟩ := hmem
    exact absurd hw (List.not_mem_nil w)
  | cons w l ih =>
    show applyWrites (bitmap_set bm w.1.1 w.1.2 w.2) l i j = c
    by_cases hw1 : w.1 = (i, j)
    · refine applyWrites_stable (fun v hv => hl v (List.mem_cons_of_mem w hv)) ?_
      unfold bitmap_set
      rw [if_pos ⟨(Prod.ext_iff.mp hw1).1.symm, (Prod.ext_iff.mp hw1).2.symm⟩]
      exact hl w (List.mem_cons_self w l) hw1
    · obtain ⟨v, hv, hv1⟩ := hmem
      rcases List.mem_cons.mp hv with rfl | hv2
      · exact absurd hv1 hw1
      · exact ih (fun u hu => hl u (List.mem_cons_of_mem w hu)) ⟨v, hv2, hv1⟩

/-- Pointwise description of a finished render: a cell some worker owns
holds its point color, every other cell still holds the sentinel. -/
theorem render_apply (cfg : RenderConfig) (i j : ℕ) :
    render cfg i j =
      if (i, j) ∈ (renderWrites cfg).map Prod.fst then pointColor cfg i j
      else some sentinel := by
  unfold render
  split
  · rename_i h
    obtain ⟨w, hw, hw1⟩ := List.mem_map.mp h
    exact applyWrites_mem
      (fun v hv hv1 => by rw [renderWrites_val hv, hv1]) ⟨w, hw, hw1⟩
  · rename_i h
    exact applyWrites_stable
      (fun v hv hv1 => absurd (List.mem_map.mpr ⟨v, hv, hv1⟩) h) rfl

/-- The orbit of the origin never moves: the loop state stays at `(0, 0)`,
so the loop only stops when the fuel (the iteration cap) runs out. -/
theorem mandelIter_origin (fuel : ℕ) : mandelIter 0 0 0 0 fuel = fuel := by
  induction fuel with
  | zero => rfl
  | succ n ih =>
    have h1 : (0 * 0 - 0 * 0 + 0 : ℚ) = 0 := by norm_num
    have h2 : (2 * 0 * 0 + 0 : ℚ) = 0 := by norm_num
    rw [mandelIter, if_pos (by norm_num), h1, h2, ih]

/-- Claim C2, counterexample: at the point `(3, 0)` with `max = 5` the code
reports 0 completed iterations (the initial point already fails the escape
test), while the procedure of the claim, started from `z = 0`, completes one
iteration before testing `c` itself, so the two produce different colors. -/
theorem c2_counterexample :
    iterations_at_point 3 0 5 ≠ specEscapeColor 3 0 5 := by
  norm_num [iterations_at_point, specEscapeColor, mandelIter,
    iteration_to_color, MAKE_RGBA]
  decide

/-- Claim C2 (amended): `iterations_at_point(x, y, max)` computes the escape
count by iterating `z ← z² + c` with `c = x + iy` and the updates
`zx' = zx² − zy² + x`, `zy' = 2·zx·zy + y`, but starting from `z = c` (the
code initializes the running point to the input point), testing
`zx² + zy² > 4` before each update, stopping at escape or when the count
reaches `max`, and the value passed to the color mapping is `iter`, the
number of completed iterations at the stop. -/
theorem c2_escape_loop (x y : ℚ) (max : ℤ) :
    iterations_at_point x y max =
      iteration_to_color (mandelIter x y x y max.toNat) max ∧
    mandelIter x y x y max.toNat ≤ max.toNat ∧
    (∀ k < mandelIter x y x y max.toNat,
      (zOrbit x y (x, y) k).1 * (zOrbit x y (x, y) k).1 +
        (zOrbit x y (x, y) k).2 * (zOrbit x y (x, y) k).2 ≤ 4) ∧
    (mandelIter x y x y max.toNat < max.toNat →
      4 < (zOrbit x y (x, y) (mandelIter x y x y max.toNat)).1 *
            (zOrbit x y (x, y) (mandelIter x y x y max.toNat)).1 +
          (zOrbit x y (x, y) (mandelIter x y x y max.toNat)).2 *
            (zOrbit x y (x, y) (mandelIter x y x y max.toNat)).2) :=
  ⟨rfl, mandelIter_le_fuel x y x y max.toNat,
    (mandelIter_orbit x y (x, y) max.toNat).1,
    (mandelIter_orbit x y (x, y) max.toNat).2⟩

theorem c2_escape_loop_witness :
    mandelIter 3 0 3 0 (5 : ℤ).toNat ≤ (5 : ℤ).toNat :=
  (c2_escape_loop 3 0 5).2.1

/-- Claim C4: with `max = 0` the evaluator reaches the unguarded integer
division `255*0/0` in `iteration_to_color`; the embedding marks that
division by zero as `none`, so no gray value (in particular not `gray = 0`)
is produced. The C code performs the division the claim rules out. -/
theorem c4_max_zero_division : iterations_at_point 0 0 0 = none := rfl

/-- Claim C5, counterexample: at `max = 0` the evaluator produces no gray
value at all (the color mapping divides by zero), so the output is not an
intensity within `[0, 255]`. -/
theorem c5_counterexample :
    ¬ ∃ g : ℤ, 0 ≤ g ∧ g ≤ 255 ∧
        iterations_at_point 1 1 0 = some (MAKE_RGBA g g g 0) := by
  rintro ⟨g, -, -, h⟩
  rw [show iterations_at_point 1 1 0 = none from rfl] at h
  exact Option.noConfusion h

/-- Claim C5 (amended): for every `max ≠ 0` and every input point, the gray
intensity produced by `iterations_at_point`, computed as
`gray = 255*iter/max` in C integer division, lies within `[0, 255]`
inclusive; at `max = 0` the division is undefined and no value is produced. -/
theorem c5_gray_in_range (x y : ℚ) (max : ℤ) (hmax : max ≠ 0) :
    ∃ g : ℤ, iterations_at_point x y max = some (MAKE_RGBA g g g 0) ∧
      0 ≤ g ∧ g ≤ 255 := by
  refine ⟨(255 * (mandelIter x y x y max.toNat : ℤ)).tdiv max, ?_, ?_, ?_⟩
  · simp only [iterations_at_point, iteration_to_color, if_neg hmax]
  · rcases hmax.lt_or_lt with hneg | hpos
    · have h0 : (mandelIter x y x y max.toNat : ℤ) = 0 := by
        rw [Int.toNat_of_nonpos hneg.le]
        rfl
      rw [h0, mul_zero, Int.zero_tdiv]
    · exact Int.tdiv_nonneg (by positivity) hpos.le
  · rcases hmax.lt_or_lt with hneg | hpos
    · have h0 : (mandelIter x y x y max.toNat : ℤ) = 0 := by
        rw [Int.toNat_of_nonpos hneg.le]
        rfl
      rw [h0, mul_zero, Int.zero_tdiv]
      norm_num
    · have hle : (mandelIter x y x y max.toNat : ℤ) ≤ max := by
        calc (mandelIter x y x y max.toNat : ℤ) ≤ (max.toNat : ℤ) := by
              exact_mod_cast mandelIter_le_fuel x y x y max.toNat
          _ = max := Int.toNat_of_nonneg hpos.le
      rw [Int.tdiv_eq_ediv (by positivity) hpos.le]
      calc (255 * (mandelIter x y x y max.toNat : ℤ)) / max
          ≤ 255 * max / max := Int.ediv_le_ediv hpos (by linarith)
        _ = 255 := Int.mul_ediv_cancel 255 hmax

theorem c5_gray_in_range_witness :
    ∃ g : ℤ, iterations_at_point 0 0 2 = some (MAKE_RGBA g g g 0) ∧
      0 ≤ g ∧ g ≤ 255 :=
  c5_gray_in_range 0 0 2 (by decide)

/-- Claim C7: for every `max > 0`, the orbit of `(0, 0)` never escapes, the
loop runs exactly `max` iterations, and `255*max/max = 255`, so
`iterations_at_point(0, 0, max)` returns the maximum color, gray `255`. -/
theorem c7_origin_max_color (max : ℤ) (hmax : 0 < max) :
    iterations_at_point 0 0 max = some (MAKE_RGBA 255 255 255 0) := by
  have hne : max ≠ 0 := hmax.ne'
  simp only [iterations_at_point, iteration_to_color, if_neg hne,
    mandelIter_origin]
  have h255 : (255 * (max.toNat : ℤ)).tdiv max = 255 := by
    rw [Int.toNat_of_nonneg hmax.le]
    exact Int.mul_tdiv_cancel 255 hne
  rw [h255]

theorem c7_origin_max_color_witness :
    iterations_at_point 0 0 3 = some (MAKE_RGBA 255 255 255 0) :=
  c7_origin_max_color 3 (by decide)

/-- Claim C9: for every `max ≥ 0` and every input point, the escape-time
loop terminates after at most `max` completed iterations: its counter (the
value `mandelIter` returns) never exceeds the cap. -/
theorem c9_loop_bounded (x y : ℚ) (max : ℤ) (hmax : 0 ≤ max) :
    (mandelIter x y x y max.toNat : ℤ) ≤ max := by
  calc (mandelIter x y x y max.toNat : ℤ) ≤ (max.toNat : ℤ) := by
        exact_mod_cast mandelIter_le_fuel x y x y max.toNat
    _ = max := Int.toNat_of_nonneg hmax

theorem c9_loop_bounded_witness :
    (mandelIter 0 0 0 0 (2 : ℤ).toNat : ℤ) ≤ 2 :=
  c9_loop_bounded 0 0 2 (by decide)

/-- Claim C8: for every `thread_count n ≥ 1`, the dispatch and join loops of
`main` index the length-`n` arrays `args` and `tid` exactly at positions
`1..n`: index 0 is never touched, index `n` is touched by both loops, and a
bounds check for a 0-based length-`n` array rejects index `n`. -/
theorem c8_one_based_indexing (n : ℕ) (hn : 1 ≤ n) :
    (∀ t ∈ dispatchIndices n, 1 ≤ t ∧ t ≤ n) ∧
    (∀ t ∈ joinIndices n, 1 ≤ t ∧ t ≤ n) ∧
    0 ∉ dispatchIndices n ∧ 0 ∉ joinIndices n ∧
    n ∈ dispatchIndices n ∧ n ∈ joinIndices n ∧
    ¬ indexInBounds n n := by
  have hd : ∀ t ∈ dispatchIndices n, 1 ≤ t ∧ t ≤ n :=
    fun t ht => mem_dispatchIndices.mp ht
  have hj : ∀ t ∈ joinIndices n, 1 ≤ t ∧ t ≤ n :=
    fun t ht => hd t (List.mem_reverse.mp ht)
  refine ⟨hd, hj, fun h => ?_, fun h => ?_,
    mem_dispatchIndices.mpr ⟨hn, le_refl n⟩,
    List.mem_reverse.mpr (mem_dispatchIndices.mpr ⟨hn, le_refl n⟩),
    Nat.lt_irrefl n⟩
  · exact absurd (hd 0 h).1 (by omega)
  · exact absurd (hj 0 h).1 (by omega)

theorem c8_one_based_indexing_witness :
    2 ∈ dispatchIndices 2 ∧ ¬ indexInBounds 2 2 :=
  ⟨(c8_one_based_indexing 2 (by decide)).2.2.2.2.1,
    (c8_one_based_indexing 2 (by decide)).2.2.2.2.2.2⟩

/-- Claim C1, counterexample: with two workers, `scale = 4`, `center.y = 0`
and a height-2 image, the first pixel row of worker 2 maps to plane
coordinate 0, while the formula of the claim predicts
`ycenter2 - yscale + 2*yscale*(2-1)/2 = -2`. -/
theorem c1_counterexample : firstRowY cfgTwo 2 ≠ specBandYmin cfgTwo 2 := by
  norm_num [firstRowY, specBandYmin, yPlane, mkArgs, cfgTwo]

/-- Claim C1 (amended): for worker `t` in `1..thread_count`, when
`thread_count` divides the positive `image_height`, the y value the first
pixel row of worker `t` maps to is `ycenter2 - yscale + 2*yscale*(t-1)` —
without the division by `thread_count` the claim states — and the bands
stacked cover the range from `ycenter2 - yscale` spanning `2*scale` (not
`2*yscale`) exactly once in row order: the row-to-plane map of every worker
is the single linear interpolation
`j ↦ (ycenter2 - yscale) + j*(2*scale)/image_height`. Here
`yscale = scale/thread_count` and `ycenter2 = center.y - yscale`. -/
theorem c1_band_lower_bounds (cfg : RenderConfig) (t : ℕ)
    (hpos : 0 < cfg.threads) (hdvd : cfg.threads ∣ cfg.image_height)
    (hih : 0 < cfg.image_height) (ht1 : 1 ≤ t) (_ht2 : t ≤ cfg.threads) :
    firstRowY cfg t =
      (cfg.ycenter - cfg.scale / cfg.threads) - cfg.scale / cfg.threads +
        2 * (cfg.scale / cfg.threads) * ((t - 1 : ℕ) : ℚ) ∧
    ∀ j : ℕ, yPlane cfg j =
      (cfg.ycenter - cfg.scale / cfg.threads) - cfg.scale / cfg.threads +
        j * (2 * cfg.scale) / cfg.image_height := by
  have hn0 : (cfg.threads : ℚ) ≠ 0 := Nat.cast_ne_zero.mpr hpos.ne'
  have hhpos : 0 < cfg.image_height / cfg.threads :=
    Nat.div_pos (Nat.le_of_dvd hih hdvd) hpos
  have hh0 : ((cfg.image_height / cfg.threads : ℕ) : ℚ) ≠ 0 :=
    Nat.cast_ne_zero.mpr hhpos.ne'
  have hH : (cfg.image_height : ℚ) =
      (cfg.threads : ℚ) * ((cfg.image_height / cfg.threads : ℕ) : ℚ) := by
    exact_mod_cast (Nat.mul_div_cancel' hdvd).symm
  constructor
  · unfold firstRowY yPlane mkArgs
    push_cast
    field_simp
    ring
  · intro j
    unfold yPlane mkArgs
    rw [hH]
    field_simp
    left
    left
    ring

theorem c1_band_lower_bounds_witness :
    firstRowY cfgTwo 2 =
      (cfgTwo.ycenter - cfgTwo.scale / cfgTwo.threads) -
        cfgTwo.scale / cfgTwo.threads +
        2 * (cfgTwo.scale / cfgTwo.threads) * ((2 - 1 : ℕ) : ℚ) :=
  (c1_band_lower_bounds cfgTwo 2 (by decide) (by decide) (by decide)
    (by decide) (by decide)).1

/-- Claim C6: with `thread_count = 3` and `image_height = 10`, each worker
owns `row_count = 10/3 = 3` rows, so exactly the rows `0..8` are rendered:
the last row, row 9, belongs to no worker band, and after the render every
pixel of row 9 still holds the sentinel color of the pre-fill. -/
theorem c6_skipped_last_row (cfg : RenderConfig)
    (hth : cfg.threads = 3) (hht : cfg.image_height = 10) :
    (∀ i < cfg.image_width, ∀ j < 10,
      ((∃ c, ((i, j), c) ∈ renderWrites cfg) ↔ j ≠ 9)) ∧
    ∀ i : ℕ, render cfg i 9 = some sentinel := by
  have hq : cfg.image_height / cfg.threads = 3 := by rw [hth, hht]
  have hnot : ∀ i : ℕ, ∀ c, ((i, 9), c) ∉ renderWrites cfg := by
    intro i c hmem
    obtain ⟨t, ht1, ht2, i2, j2, hi2, hj1, hj2, heq⟩ := mem_renderWrites.mp hmem
    rw [hq] at hj1 hj2
    rw [hth] at ht2
    have hj9 : (9 : ℕ) = j2 := (Prod.ext_iff.mp (Prod.ext_iff.mp heq).1).2
    omega
  constructor
  · intro i hi j hj
    constructor
    · rintro ⟨c, hc⟩ rfl
      exact hnot i c hc
    · intro hj9
      refine ⟨pointColor cfg i j,
        mem_renderWrites.mpr ⟨j / 3 + 1, ?_, ?_, i, j, hi, ?_, ?_, rfl⟩⟩
      · omega
      · rw [hth]; omega
      · rw [hq]; omega
      · rw [hq]; omega
  · intro i
    rw [render_apply, if_neg]
    intro hmem
    obtain ⟨w, hw, hkey⟩ := List.mem_map.mp hmem
    exact hnot i w.2 (by rw [← hkey]; exact hw)

theorem c6_skipped_last_row_witness : render cfgTen 0 9 = some sentinel :=
  (c6_skipped_last_row cfgTen rfl rfl).2 0

/-- Any schedule of the render writes — any permutation of the full write
list, which subsumes every interleaving of the per-worker write sequences —
produces the same bitmap the dispatch-order render produces. -/
theorem applyWrites_perm_render (cfg : RenderConfig)
    (l : List ((ℕ × ℕ) × Option ℤ)) (hl : l.Perm (renderWrites cfg))
    (i j : ℕ) : applyWrites initialBitmap l i j = render cfg i j := by
  rw [render_apply]
  split
  · rename_i h
    obtain ⟨w, hw, hw1⟩ := List.mem_map.mp h
    exact applyWrites_mem
      (fun v hv hv1 => by rw [renderWrites_val (hl.mem_iff.mp hv), hv1])
      ⟨w, hl.mem_iff.mpr hw, hw1⟩
  · rename_i h
    exact applyWrites_stable
      (fun v hv hv1 => absurd (List.mem_map.mpr ⟨v, hl.mem_iff.mp hv, hv1⟩) h)
      rfl

/-- Claim C10: the canvas a render produces depends only on the
configuration, not on thread scheduling: any two orders in which the
workers' writes reach the shared bitmap (any two permutations of the write
list) yield a bit-identical canvas, because the color written at a cell is a
function of the cell alone and distinct writes touch distinct cells. -/
theorem c10_schedule_determinism (cfg : RenderConfig)
    (l1 l2 : List ((ℕ × ℕ) × Option ℤ))
    (h1 : l1.Perm (renderWrites cfg)) (h2 : l2.Perm (renderWrites cfg))
    (i j : ℕ) :
    applyWrites initialBitmap l1 i j = applyWrites initialBitmap l2 i j := by
  rw [applyWrites_perm_render cfg l1 h1 i j,
    applyWrites_perm_render cfg l2 h2 i j]

theorem c10_schedule_determinism_witness :
    applyWrites initialBitmap (renderWrites cfgTwo) 0 0 =
      applyWrites initialBitmap ((renderWrites cfgTwo).reverse) 0 0 :=
  c10_schedule_determinism cfgTwo (renderWrites cfgTwo)
    ((renderWrites cfgTwo).reverse) (List.Perm.refl _)
    ((renderWrites cfgTwo).reverse_perm) 0 0

/-- The cells of one worker band: dropping the colors from its write list
leaves the rectangle of its rows times all columns. -/
theorem map_fst_compute_image_writes (bmw bmh : ℕ) (args : thread_args) :
    (compute_image_writes bmw bmh args).map Prod.fst =
      (List.range' ((bmh / args.threads) * (args.tnumber - 1))
          (bmh / args.threads)).flatMap fun j =>
        (List.range bmw).map fun i => (i, j) := by
  unfold compute_image_writes
  rw [List.map_flatMap]
  simp only [List.map_map]
  rfl

theorem mem_band_keys {bmw bmh : ℕ} {args : thread_args} {i j : ℕ} :
    (i, j) ∈ (compute_image_writes bmw bmh args).map Prod.fst ↔
      i < bmw ∧ (bmh / args.threads) * (args.tnumber - 1) ≤ j ∧
        j < (bmh / args.threads) * (args.tnumber - 1) + bmh / args.threads := by
  rw [map_fst_compute_image_writes]
  simp only [List.mem_flatMap, List.mem_map, List.mem_range, List.mem_range'_1,
    Prod.mk.injEq]
  constructor
  · rintro ⟨j2, ⟨hj1, hj2⟩, i2, hi2, rfl, rfl⟩
    exact ⟨hi2, hj1, hj2⟩
  · rintro ⟨hi, hj1, hj2⟩
    exact ⟨j, ⟨hj1, hj2⟩, i, hi, rfl, rfl⟩

/-- Two different workers never own the same row. -/
theorem band_rows_disjoint (h t1 t2 j : ℕ) (h1 : 1 ≤ t1) (h2 : 1 ≤ t2)
    (hne : t1 ≠ t2) (hj1 : h * (t1 - 1) ≤ j) (hj2 : j < h * (t1 - 1) + h)
    (hj3 : h * (t2 - 1) ≤ j) (hj4 : j < h * (t2 - 1) + h) : False := by
  have key : ∀ a b : ℕ, 1 ≤ a → a < b →
      h * (a - 1) ≤ j → j < h * (a - 1) + h → h * (b - 1) ≤ j → False := by
    intro a b ha hab hja hja2 hjb
    have e1 : h * (a - 1) + h = h * a := by
      have : a - 1 + 1 = a := Nat.succ_pred_eq_of_pos ha
      calc h * (a - 1) + h = h * (a - 1 + 1) := by ring
        _ = h * a := by rw [this]
    have e2 : h * a ≤ h * (b - 1) := Nat.mul_le_mul_left h (by omega)
    exact Nat.lt_irrefl j
      (calc j < h * (a - 1) + h := hja2
        _ = h * a := e1
        _ ≤ h * (b - 1) := e2
        _ ≤ j := hjb)
  rcases Nat.lt_or_ge t1 t2 with hlt | hge
  · exact key t1 t2 h1 hlt hj1 hj2 hj3
  · exact key t2 t1 h2 (by omega) hj3 hj4 hj1

/-- Claim C3, counterexample: with `thread_count = 3` and a 1×10 image, the
canvas cell `(0, 9)` lies inside the image but belongs to no worker band:
the bands do not cover the full image, and the cell is written by no worker
rather than by exactly one. -/
theorem c3_counterexample :
    (0, 9) ∉ (renderWrites cfgTen).map Prod.fst := by
  intro h
  obtain ⟨w, hw, hw1⟩ := List.mem_map.mp h
  obtain ⟨t, ht1, ht2, i, j, hi, hj1, hj2, rfl⟩ := mem_renderWrites.mp hw
  simp only [cfgTen] at ht2 hj1 hj2
  obtain ⟨h1, h2⟩ := Prod.ext_iff.mp hw1
  simp_all
  omega

/-- Claim C3 (amended): within one render the workers' bands are pairwise
disjoint, so every canvas cell is written at most once and no two workers
ever write the same cell; the bands cover the full image exactly when
`thread_count` divides `image_height` (otherwise the trailing
`image_height mod thread_count` rows are written by no worker). -/
theorem c3_partition (cfg : RenderConfig) :
    ((renderWrites cfg).map Prod.fst).Nodup ∧
    (∀ t1 t2 : ℕ, 1 ≤ t1 → 1 ≤ t2 → t1 ≠ t2 →
      ∀ w1 ∈ compute_image_writes cfg.image_width cfg.image_height
        (mkArgs cfg t1),
      ∀ w2 ∈ compute_image_writes cfg.image_width cfg.image_height
        (mkArgs cfg t2),
        w1.1 ≠ w2.1) ∧
    (cfg.threads ∣ cfg.image_height →
      ∀ i < cfg.image_width, ∀ j < cfg.image_height,
        ∃ c, ((i, j), c) ∈ renderWrites cfg) := by
  refine ⟨?_, ?_, ?_⟩
  · -- at most one write per cell: the key list has no duplicates
    unfold renderWrites
    rw [List.map_flatMap, List.nodup_flatMap]
    constructor
    · intro t ht
      rw [map_fst_compute_image_writes, List.nodup_flatMap]
      constructor
      · intro j hj
        exact (List.nodup_range cfg.image_width).map
          (fun a b hab => (Prod.ext_iff.mp hab).1)
      · refine (List.nodup_range' _ _ 1 (by norm_num)).imp ?_
        intro a b hab x hxa hxb
        obtain ⟨i1, -, rfl⟩ := List.mem_map.mp hxa
        obtain ⟨i2, -, heq⟩ := List.mem_map.mp hxb
        exact hab ((Prod.ext_iff.mp heq).2).symm
    · have hp : (List.range cfg.threads).Pairwise (· < ·) :=
        List.pairwise_lt_range cfg.threads
      unfold dispatchIndices
      rw [List.pairwise_map]
      refine hp.imp ?_
      intro a b hab x hxa hxb
      obtain ⟨i1, j1⟩ := x
      rw [mem_band_keys] at hxa hxb
      simp only [mkArgs] at hxa hxb
      exact band_rows_disjoint _ (a + 1) (b + 1) _ (by omega)
        (by omega) (by omega) hxa.2.1 hxa.2.2 hxb.2.1 hxb.2.2
  · -- no two workers share a cell
    intro t1 t2 ht1 ht2 hne w1 hw1 w2 hw2 hkey
    obtain ⟨i1, j1, hi1, ha1, ha2, rfl⟩ := mem_compute_image_writes.mp hw1
    obtain ⟨i2, j2, hi2, hb1, hb2, rfl⟩ := mem_compute_image_writes.mp hw2
    simp only [mkArgs] at ha1 ha2 hb1 hb2
    have hj12 : j1 = j2 := (Prod.ext_iff.mp hkey).2
    rw [hj12] at ha1 ha2
    exact band_rows_disjoint _ _ _ _ ht1 ht2 hne ha1 ha2 hb1 hb2
  · -- coverage when thread_count divides image_height
    intro hdvd i hi j hj
    have hth : cfg.threads ≠ 0 := by
      intro h0
      rw [h0] at hdvd
      have h00 : cfg.image_height = 0 := Nat.eq_zero_of_zero_dvd hdvd
      omega
    have hhpos : 0 < cfg.image_height / cfg.threads :=
      Nat.div_pos (Nat.le_of_dvd (by omega) hdvd) (Nat.pos_of_ne_zero hth)
    have hH : cfg.threads * (cfg.image_height / cfg.threads) =
        cfg.image_height := Nat.mul_div_cancel' hdvd
    have hlt : j / (cfg.image_height / cfg.threads) < cfg.threads := by
      rw [Nat.div_lt_iff_lt_mul hhpos, hH]
      exact hj
    refine ⟨pointColor cfg i j,
      mem_renderWrites.mpr ⟨j / (cfg.image_height / cfg.threads) + 1,
        Nat.succ_le_succ (Nat.zero_le _), Nat.succ_le_of_lt hlt,
        i, j, hi, ?_, ?_, rfl⟩⟩
    · rw [Nat.add_sub_cancel, Nat.mul_comm]
      exact Nat.div_mul_le_self j _
    · rw [Nat.add_sub_cancel]
      calc j = (cfg.image_height / cfg.threads) *
              (j / (cfg.image_height / cfg.threads)) +
              j % (cfg.image_height / cfg.threads) :=
            (Nat.div_add_mod j (cfg.image_height / cfg.threads)).symm
        _ < (cfg.image_height / cfg.threads) *
              (j / (cfg.image_height / cfg.threads)) +
              cfg.image_height / cfg.threads :=
            Nat.add_lt_add_left (Nat.mod_lt j hhpos) _

theorem c3_partition_witness :
    ∃ c, ((0, 1), c) ∈ renderWrites cfgTwo :=
  (c3_partition cfgTwo).2.2 (by decide) 0 (by decide) 1 (by decide)

end Mandel
